import Mathlib

/-!
# Verification of the neo4j-graph-memory core

Shallow embedding of `src/mcp-scripts/semantic-knowledge-graph-rag.py`.

The graph store is modelled as explicit lists of nodes and relationships.
Node identity is the `id` property (the code generates fresh UUIDs, so ids
coincide with node identity on the reachable states; theorems that need it
carry freshness or at-most-one-latest hypotheses).  The embedding model and
the cross-encoder are opaque external functions, passed as parameters.
Python floats are modelled as `ℚ` (all scores here are built from exact
reciprocals `1/(rrf_k + rank)` and sums of them).

Cypher statements are translated clause by clause:
* `MERGE` on a node keyed by id = update-if-present / append-if-absent;
* `CREATE` = unconditional append of a node;
* `DETACH DELETE p` = remove the node `p` and exactly the relationships
  incident to `p` (relationships between other nodes are untouched);
* a `MATCH ... WHERE n.id IN $ids` without `ORDER BY` returns its rows in
  the store's scan order (here: the order of the relationship list), not in
  the order of the `ids` parameter;
* the single-row `upsert` Cypher is translated for states with at most one
  `HAS_LATEST_SUMMARY` edge per project (the only states the statement
  itself ever produces); theorems about it assume at most one such edge.
-/

namespace GraphMemory

/-! ## Data model -/

structure ProjectNode where
  id : String
  name : String
  question : String
  updated_at : Nat
deriving DecidableEq

structure SummaryNode (E : Type) where
  id : String
  text : String
  embedding : E
  created_at : Nat
deriving DecidableEq

/-- The graph store: `Project` nodes, `Summary` nodes, and the three
relationship types, each as a list of (source id, target id) pairs in
creation (scan) order. -/
structure Store (E : Type) where
  projects : List ProjectNode
  summaries : List (SummaryNode E)
  hasLatest : List (String × String)
  hasSummary : List (String × String)
  prevVersion : List (String × String)
deriving DecidableEq

variable {E : Type}

/-- The empty store. -/
def Store.empty (E : Type) : Store E := ⟨[], [], [], [], []⟩

/-- Number of `HAS_LATEST_SUMMARY` edges whose source is `project_id`. -/
def countLatest (st : Store E) (project_id : String) : Nat :=
  (st.hasLatest.filter (fun e => e.1 = project_id)).length

/-! ## upsert_project_tool

Translation of the Cypher in `upsert_project_tool` (source lines 48-72).
`project_id` is the already-resolved id (the Python code substitutes a fresh
UUID when the argument is `None`); `summary_id` is the fresh UUID generated
for the new summary; `now` stands for `datetime()`.  The embedding is
computed from `f"{question}\n{summary}"` exactly as in source line 43. -/

def upsert_project_tool (embed : String → E) (now : Nat)
    (name question summary : String) (project_id summary_id : String)
    (st : Store E) : Store E × (String × String × String) :=
  let text_for_embedding := question ++ "\n" ++ summary
  let embedding := embed text_for_embedding
  -- MERGE (p:Project {id: $project_id}) SET p.name, p.question, p.updated_at
  let projects :=
    if st.projects.any (fun p => p.id = project_id) then
      st.projects.map (fun p =>
        if p.id = project_id then
          { p with name := name, question := question, updated_at := now }
        else p)
    else
      st.projects ++ [⟨project_id, name, question, now⟩]
  -- OPTIONAL MATCH (p)-[old_rel:HAS_LATEST_SUMMARY]->(old_s); DELETE old_rel
  let old_targets := (st.hasLatest.filter (fun e => e.1 = project_id)).map (fun e => e.2)
  let latestRemoved := st.hasLatest.filter (fun e => e.1 ≠ project_id)
  -- CREATE (s:Summary {id: $summary_id}) SET s.text, s.embedding, s.created_at
  let summaries := st.summaries ++ [⟨summary_id, summary, embedding, now⟩]
  -- MERGE (p)-[:HAS_LATEST_SUMMARY]->(s)  (s freshly created, edge cannot exist)
  let hasLatest := latestRemoved ++ [(project_id, summary_id)]
  -- MERGE (p)-[:HAS_SUMMARY]->(s)
  let hasSummary :=
    if (project_id, summary_id) ∈ st.hasSummary then st.hasSummary
    else st.hasSummary ++ [(project_id, summary_id)]
  -- FOREACH (old_s not null): MERGE (s)-[:PREVIOUS_VERSION]->(old_s)
  let prevVersion := st.prevVersion ++ old_targets.map (fun o => (summary_id, o))
  -- RETURN p.id AS project_id, p.name AS project_name, s.id AS summary_id
  (⟨projects, summaries, hasLatest, hasSummary, prevVersion⟩,
   (project_id, name, summary_id))

/-- One upsert call in a sequence on a fixed project: the per-call data.
`summary_id` stands for the fresh UUID of that call, `now` for its
`datetime()`. -/
structure UpsertCall where
  name : String
  question : String
  summary : String
  summary_id : String
  now : Nat

/-- A sequence of `upsert_project_tool` calls on the same `project_id`. -/
def upsertSeq (embed : String → E) (project_id : String)
    (calls : List UpsertCall) (st : Store E) : Store E :=
  calls.foldl
    (fun s c =>
      (upsert_project_tool embed c.now c.name c.question c.summary
        project_id c.summary_id s).1)
    st

/-! ## delete_project_tool

`MATCH (p:Project {id: $project_id}) DETACH DELETE p` removes the Project
node and every relationship incident to it; `Summary` nodes and
`PREVIOUS_VERSION` edges (which connect two summaries) are not touched.
The Python function then returns `True` unconditionally. -/

def delete_project_tool (project_id : String) (st : Store E) : Store E × Bool :=
  ({ st with
      projects := st.projects.filter (fun p => p.id ≠ project_id),
      hasLatest := st.hasLatest.filter (fun e => e.1 ≠ project_id),
      hasSummary := st.hasSummary.filter (fun e => e.1 ≠ project_id) },
   true)

/-! ## get_latest_summary_tool

`MATCH (p:Project {id: $project_id})-[:HAS_LATEST_SUMMARY]->(s:Summary)
 RETURN p.id AS project_id, p.question AS project_name,
        s.text AS latest_summary, s.id AS summary_id`
followed by `record.data() if record else "No project found."`.
A returned record is modelled as its key/value association list, with the
exact keys produced by the `RETURN` aliases; the no-record case returns the
literal Python string. -/

def get_latest_summary_tool (st : Store E) (project_id : String) :
    List (String × String) ⊕ String :=
  match st.hasLatest.find? (fun e => e.1 = project_id) with
  | none => Sum.inr "No project found."
  | some e =>
    match st.projects.find? (fun p => p.id = project_id),
          st.summaries.find? (fun s => s.id = e.2) with
    | some p, some s =>
        Sum.inl [("project_id", p.id), ("project_name", p.question),
                 ("latest_summary", s.text), ("summary_id", s.id)]
    | _, _ => Sum.inr "No project found."

/-! ## get_data_tool (hydration)

`MATCH (p:Project)-[:HAS_SUMMARY]->(n) WHERE n.id IN $node_ids
 RETURN p.id AS id, p.question AS question, n.text AS summary`.
The `IN` clause is a filter; there is no `ORDER BY`, so rows come back in
the store's scan order over `HAS_SUMMARY` edges, not in `node_ids` order. -/

structure DataRow where
  id : String
  question : String
  summary : String
deriving DecidableEq

/-- First Project node with the given id (the graph match on `p.id`). -/
def lookupProject : List ProjectNode → String → Option ProjectNode
  | [], _ => none
  | p :: rest, pid => if p.id = pid then some p else lookupProject rest pid

/-- First Summary node with the given id (the graph match on `n.id`). -/
def lookupSummary : List (SummaryNode E) → String → Option (SummaryNode E)
  | [], _ => none
  | s :: rest, sid => if s.id = sid then some s else lookupSummary rest sid

def get_data_tool (st : Store E) (node_ids : List String) : List DataRow :=
  if node_ids.isEmpty then []
  else
    st.hasSummary.filterMap (fun e =>
      if e.2 ∈ node_ids then
        (lookupProject st.projects e.1).bind (fun p =>
          (lookupSummary st.summaries e.2).map (fun n =>
            DataRow.mk p.id p.question n.text))
      else none)

/-! ## RRF fusion (hybrid_rrf_search)

The Python dict `rrf_scores` is an insertion-ordered association list; the
two `for rank, item in enumerate(results, start=1)` loops become `addList`
(semantic list first, then BM25, as in the source); `sorted(...,
key=lambda x: x[1], reverse=True)` is a stable descending sort, modelled by
`List.mergeSort` with the comparator `b.2 ≤ a.2`. -/

abbrev ScoreMap := List (String × ℚ)

/-- `rrf_scores.get(id, 0)`: the accumulated score of `id`, 0 if absent
(the dict holds each key at most once; lookup takes the first match). -/
def scoreOf (id : String) : ScoreMap → ℚ
  | [] => 0
  | kv :: m => if kv.1 = id then kv.2 else scoreOf id m

/-- `rrf_scores.setdefault(id, 0); rrf_scores[id] += c` on the
insertion-ordered dict. -/
def addContribution (id : String) (c : ℚ) (m : ScoreMap) : ScoreMap :=
  if m.any (fun kv => kv.1 = id) then
    m.map (fun kv => if kv.1 = id then (kv.1, kv.2 + c) else kv)
  else
    m ++ [(id, c)]

/-- One `for rank, item in enumerate(results, start=1)` accumulation loop,
with `rank` starting at `rank₀`. -/
def addList (rrf_k : ℚ) : List String → Nat → ScoreMap → ScoreMap
  | [], _, m => m
  | id :: rest, rank, m =>
      addList rrf_k rest (rank + 1)
        (addContribution id (1 / (rrf_k + (rank : ℚ))) m)

/-- The full `rrf_scores` dict: semantic contributions first, then BM25,
exactly as in the source. -/
def rrfScores (rrf_k : ℚ) (semanticIds bm25Ids : List String) : ScoreMap :=
  addList rrf_k bm25Ids 1 (addList rrf_k semanticIds 1 [])

/-- The comparator of `sorted(..., key=lambda x: x[1], reverse=True)`:
`a` may precede `b` when `a`'s score is at least `b`'s.  Python's `sorted`
is a stable sort; it is modelled by `List.insertionSort`, which is stable
and sorts with respect to this total transitive relation. -/
def scoreDesc (a b : String × ℚ) : Prop := b.2 ≤ a.2

instance : DecidableRel scoreDesc :=
  fun a b => inferInstanceAs (Decidable (b.2 ≤ a.2))

instance : IsTotal (String × ℚ) scoreDesc :=
  ⟨fun a b => le_total b.2 a.2⟩

instance : IsTrans (String × ℚ) scoreDesc :=
  ⟨fun _ _ _ hab hbc => le_trans hbc hab⟩

/-- `ranked_ids`: the score dict stably sorted by score descending. -/
def rankedIds (rrf_k : ℚ) (semanticIds bm25Ids : List String) :
    List (String × ℚ) :=
  List.insertionSort scoreDesc (rrfScores rrf_k semanticIds bm25Ids)

/-- `top_ranked_ids = [node_id for node_id, _ in ranked_ids[:top_k]]`. -/
def hybridFuseIds (top_k : Nat) (rrf_k : ℚ)
    (semanticIds bm25Ids : List String) : List String :=
  ((rankedIds rrf_k semanticIds bm25Ids).take top_k).map (fun kv => kv.1)

/-- The fusion with the opposite processing order: BM25 contributions
accumulated before the semantic ones.  The source always processes the
semantic list first; this variant is the counterfactual needed to state
independence of adapter processing order. -/
def rrfScoresSwapped (rrf_k : ℚ) (semanticIds bm25Ids : List String) :
    ScoreMap :=
  addList rrf_k semanticIds 1 (addList rrf_k bm25Ids 1 [])

/-- `hybridFuseIds` computed with the opposite processing order. -/
def hybridFuseIdsSwapped (top_k : Nat) (rrf_k : ℚ)
    (semanticIds bm25Ids : List String) : List String :=
  ((List.insertionSort scoreDesc (rrfScoresSwapped rrf_k semanticIds bm25Ids)).take
      top_k).map (fun kv => kv.1)

/-- An item returned by `get_semantic_matches` / `get_bm25_matches`. -/
structure SearchHit where
  node_id : String
  summary : String
  score : ℚ
deriving DecidableEq

/-- An adapter (semantic or BM25 search): query text, top_k, min_score ↦
ranked hits.  Both wrap external store queries and are parameters here. -/
abbrev Adapter := String → Nat → ℚ → List SearchHit

/-- `hybrid_rrf_search` (source lines 200-237): over-fetch `top_k * 2` from
each adapter with `min_score = 0`, fuse by RRF, keep `top_k`, hydrate. -/
def hybrid_rrf_search (semAdapter bm25Adapter : Adapter) (st : Store E)
    (query_text : String) (top_k : Nat) (rrf_k : ℚ) : List DataRow :=
  let semantic_results := semAdapter query_text (top_k * 2) 0
  let bm25_results := bm25Adapter query_text (top_k * 2) 0
  let top_ranked_ids := hybridFuseIds top_k rrf_k
      (semantic_results.map (fun h => h.node_id))
      (bm25_results.map (fun h => h.node_id))
  get_data_tool st top_ranked_ids

/-! ## Cross-encoder reranking (hybrid_rerank_search) -/

/-- A candidate dict after `c["cross_score"] = s`. -/
structure ScoredRow where
  id : String
  question : String
  summary : String
  cross_score : ℚ
deriving DecidableEq

def crossDesc (a b : ScoredRow) : Prop := b.cross_score ≤ a.cross_score

instance : DecidableRel crossDesc :=
  fun a b => inferInstanceAs (Decidable (b.cross_score ≤ a.cross_score))

instance : IsTotal ScoredRow crossDesc :=
  ⟨fun a b => le_total b.cross_score a.cross_score⟩

instance : IsTrans ScoredRow crossDesc :=
  ⟨fun _ _ _ hab hbc => le_trans hbc hab⟩

/-- The `(query_text, c["summary"])` pairs handed to
`cross_encoder_model.predict`; none are built when the candidate list is
empty (the early `return []`). -/
def rerankScorerCalls (query_text : String) (candidates : List DataRow) :
    List (String × String) :=
  if candidates.isEmpty then []
  else candidates.map (fun c => (query_text, c.summary))

/-- The reranking pass of `hybrid_rerank_search` (source lines 258-279):
early return on empty candidates, one scorer invocation per candidate on
`(query_text, c["summary"])`, stable sort by `cross_score` descending,
truncate to `top_k`. -/
def rerankPass (scorer : String → String → ℚ) (query_text : String)
    (candidates : List DataRow) (top_k : Nat) : List ScoredRow :=
  if candidates.isEmpty then []
  else
    let scored := candidates.map (fun c =>
      ScoredRow.mk c.id c.question c.summary (scorer query_text c.summary))
    (List.insertionSort crossDesc scored).take top_k

/-- `hybrid_rerank_search`: candidates via RRF fusion at `top_k * 3`, then
the cross-encoder reranking pass. -/
def hybrid_rerank_search (scorer : String → String → ℚ)
    (semAdapter bm25Adapter : Adapter) (st : Store E)
    (query_text : String) (top_k : Nat) (rrf_k : ℚ) : List ScoredRow :=
  rerankPass scorer query_text
    (hybrid_rrf_search semAdapter bm25Adapter st query_text (top_k * 3) rrf_k)
    top_k

/-! ## Spec-side definitions

These follow the spec's wording (§4.4, §8) and are compared against the
translated code above. -/

/-- Spec-side (§4.4 step 2): the contribution an item `id` receives from
one ranked list, summing `1/(rrf_k + rank)` over every 1-based position of
`id`; `rank₀` is the rank of the head. -/
def contrib (rrf_k : ℚ) : List String → Nat → String → ℚ
  | [], _, _ => 0
  | a :: rest, rank, id =>
      (if a = id then 1 / (rrf_k + (rank : ℚ)) else 0) +
        contrib rrf_k rest (rank + 1) id

/-- Fold step recording ids in first-seen order. -/
def seenFold (ks : List String) (id : String) : List String :=
  if id ∈ ks then ks else ks ++ [id]

/-- The ids of a list in first-seen order (first occurrence kept). -/
def firstSeen (L : List String) : List String := L.foldl seenFold []

/-! ## Lemmas: the score dict refines the spec's per-rank sums -/

theorem keys_addContribution (id : String) (c : ℚ) (m : ScoreMap) :
    (addContribution id c m).map (fun kv => kv.1)
      = seenFold (m.map (fun kv => kv.1)) id := by
  unfold addContribution seenFold
  by_cases h : m.any (fun kv => kv.1 = id) = true
  · rw [if_pos h, if_pos]
    · rw [List.map_map]
      apply List.map_congr_left
      intro kv _
      by_cases hkv : kv.1 = id <;> simp [hkv]
    · rcases List.any_eq_true.mp h with ⟨kv, hmem, hkv⟩
      simp only [decide_eq_true_eq] at hkv
      exact List.mem_map.mpr ⟨kv, hmem, hkv⟩
  · rw [if_neg h, if_neg]
    · simp
    · intro hmem
      apply h
      rcases List.mem_map.mp hmem with ⟨kv, hm, he⟩
      exact List.any_eq_true.mpr ⟨kv, hm, by simp [he]⟩

theorem scoreOf_map_update_ne (id a : String) (c : ℚ) (m : ScoreMap)
    (hne : a ≠ id) :
    scoreOf id (m.map (fun kv => if kv.1 = a then (kv.1, kv.2 + c) else kv))
      = scoreOf id m := by
  induction m with
  | nil => rfl
  | cons kv m ih =>
    by_cases hk : kv.1 = a
    · have hki : kv.1 ≠ id := by rw [hk]; exact hne
      simp only [List.map_cons, if_pos hk, scoreOf]
      rw [if_neg hki, if_neg hki, ih]
    · simp only [List.map_cons, if_neg hk, scoreOf]
      by_cases hki : kv.1 = id
      · rw [if_pos hki, if_pos hki]
      · rw [if_neg hki, if_neg hki, ih]

theorem scoreOf_map_update (id a : String) (c : ℚ) (m : ScoreMap)
    (hmem : m.any (fun kv => kv.1 = a) = true) :
    scoreOf id (m.map (fun kv => if kv.1 = a then (kv.1, kv.2 + c) else kv))
      = scoreOf id m + (if a = id then c else 0) := by
  induction m with
  | nil => simp at hmem
  | cons kv m ih =>
    by_cases hki : kv.1 = id
    · by_cases hk : kv.1 = a
      · have hai : a = id := by rw [← hk, hki]
        simp only [List.map_cons, if_pos hk, scoreOf]
        rw [if_pos hki, if_pos hki, if_pos hai]
      · have hai : a ≠ id := by
          intro h; rw [h] at hk; exact hk hki
        simp only [List.map_cons, if_neg hk, scoreOf]
        rw [if_pos hki, if_pos hki, if_neg hai, add_zero]
    · by_cases hk : kv.1 = a
      · by_cases hai : a = id
        · exfalso; rw [hai] at hk; exact hki hk
        · simp only [List.map_cons, if_pos hk, scoreOf]
          rw [if_neg hki, if_neg hki, if_neg hai, add_zero,
            scoreOf_map_update_ne id a c m hai]
      · have hmem2 : m.any (fun kv => kv.1 = a) = true := by
          rcases List.any_eq_true.mp hmem with ⟨x, hx, hpx⟩
          rcases List.mem_cons.mp hx with hx | hx
          · exfalso; apply hk; rw [hx] at hpx; simpa using hpx
          · exact List.any_eq_true.mpr ⟨x, hx, hpx⟩
        simp only [List.map_cons, if_neg hk, scoreOf]
        rw [if_neg hki, if_neg hki, ih hmem2]

theorem scoreOf_append_single (id a : String) (c : ℚ) (m : ScoreMap)
    (habs : ¬ m.any (fun kv => kv.1 = a) = true) :
    scoreOf id (m ++ [(a, c)])
      = scoreOf id m + (if a = id then c else 0) := by
  induction m with
  | nil =>
    by_cases h : a = id <;> simp [scoreOf, h]
  | cons kv m ih =>
    have hk : kv.1 ≠ a := by
      intro h
      exact habs (List.any_eq_true.mpr ⟨kv, List.mem_cons_self kv m, by simp [h]⟩)
    have habs2 : ¬ m.any (fun kv => kv.1 = a) = true := by
      intro h
      rcases List.any_eq_true.mp h with ⟨x, hx, hpx⟩
      exact habs (List.any_eq_true.mpr ⟨x, List.mem_cons_of_mem kv hx, hpx⟩)
    simp only [List.cons_append, scoreOf]
    by_cases hki : kv.1 = id
    · rw [if_pos hki, if_pos hki]
      have hai : a ≠ id := by
        intro h; rw [h] at hk; exact hk hki
      rw [if_neg hai, add_zero]
    · rw [if_neg hki, if_neg hki]
      exact ih habs2

theorem scoreOf_addContribution (id a : String) (c : ℚ) (m : ScoreMap) :
    scoreOf id (addContribution a c m)
      = scoreOf id m + (if a = id then c else 0) := by
  unfold addContribution
  by_cases hany : m.any (fun kv => kv.1 = a) = true
  · rw [if_pos hany]
    exact scoreOf_map_update id a c m hany
  · rw [if_neg hany]
    exact scoreOf_append_single id a c m hany

theorem scoreOf_addList (rrf_k : ℚ) (L : List String) (r : Nat) (m : ScoreMap)
    (id : String) :
    scoreOf id (addList rrf_k L r m) = scoreOf id m + contrib rrf_k L r id := by
  induction L generalizing r m with
  | nil => simp [addList, contrib]
  | cons a rest ih =>
    simp only [addList, contrib]
    rw [ih, scoreOf_addContribution, add_assoc]

theorem scoreOf_rrfScores (rrf_k : ℚ) (semanticIds bm25Ids : List String)
    (id : String) :
    scoreOf id (rrfScores rrf_k semanticIds bm25Ids)
      = contrib rrf_k semanticIds 1 id + contrib rrf_k bm25Ids 1 id := by
  unfold rrfScores
  rw [scoreOf_addList, scoreOf_addList]
  simp [scoreOf]

theorem keys_addList (rrf_k : ℚ) (L : List String) (r : Nat) (m : ScoreMap) :
    (addList rrf_k L r m).map (fun kv => kv.1)
      = L.foldl seenFold (m.map (fun kv => kv.1)) := by
  induction L generalizing r m with
  | nil => simp [addList]
  | cons a rest ih =>
    simp only [addList, List.foldl_cons]
    rw [ih, keys_addContribution]

theorem keys_rrfScores (rrf_k : ℚ) (semanticIds bm25Ids : List String) :
    (rrfScores rrf_k semanticIds bm25Ids).map (fun kv => kv.1)
      = firstSeen (semanticIds ++ bm25Ids) := by
  unfold rrfScores firstSeen
  rw [keys_addList, keys_addList, List.foldl_append]
  rfl

theorem mem_foldl_seenFold (L : List String) (ks : List String) (a : String) :
    a ∈ L.foldl seenFold ks ↔ a ∈ ks ∨ a ∈ L := by
  induction L generalizing ks with
  | nil => simp
  | cons b rest ih =>
    simp only [List.foldl_cons, ih, seenFold]
    by_cases hb : b ∈ ks
    · rw [if_pos hb]
      constructor
      · rintro (h | h)
        · exact Or.inl h
        · exact Or.inr (List.mem_cons_of_mem b h)
      · rintro (h | h)
        · exact Or.inl h
        · rcases List.mem_cons.mp h with h | h
          · subst h; exact Or.inl hb
          · exact Or.inr h
    · rw [if_neg hb]
      simp only [List.mem_append, List.mem_singleton, List.mem_cons]
      tauto

theorem nodup_foldl_seenFold (L : List String) (ks : List String)
    (h : ks.Nodup) : (L.foldl seenFold ks).Nodup := by
  induction L generalizing ks with
  | nil => exact h
  | cons b rest ih =>
    simp only [List.foldl_cons, seenFold]
    by_cases hb : b ∈ ks
    · rw [if_pos hb]; exact ih ks h
    · rw [if_neg hb]
      apply ih
      rw [List.nodup_append]
      exact ⟨h, List.nodup_singleton b, by simpa using hb⟩

theorem mem_firstSeen (L : List String) (a : String) :
    a ∈ firstSeen L ↔ a ∈ L := by
  unfold firstSeen
  rw [mem_foldl_seenFold]
  simp

theorem nodup_firstSeen (L : List String) : (firstSeen L).Nodup :=
  nodup_foldl_seenFold L [] List.nodup_nil

theorem nodup_keys_rrfScores (rrf_k : ℚ) (semanticIds bm25Ids : List String) :
    ((rrfScores rrf_k semanticIds bm25Ids).map (fun kv => kv.1)).Nodup := by
  rw [keys_rrfScores]
  exact nodup_firstSeen _

/-- An association list with nodup keys is its key list paired with its
lookup function. -/
theorem scoremap_eq_keys_map (m : ScoreMap)
    (h : (m.map (fun kv => kv.1)).Nodup) :
    m = (m.map (fun kv => kv.1)).map (fun id => (id, scoreOf id m)) := by
  induction m with
  | nil => rfl
  | cons kv m ih =>
    simp only [List.map_cons, List.nodup_cons] at h
    obtain ⟨hk, hm⟩ := h
    simp only [List.map_cons]
    have h1 : scoreOf kv.1 (kv :: m) = kv.2 := by
      simp [scoreOf, List.find?_cons]
    rw [h1]
    have h2 : (m.map (fun kv => kv.1)).map (fun id => (id, scoreOf id (kv :: m)))
        = (m.map (fun kv => kv.1)).map (fun id => (id, scoreOf id m)) := by
      apply List.map_congr_left
      intro a ha
      have hane : kv.1 ≠ a := by
        intro h; exact hk (h ▸ ha)
      simp [scoreOf, List.find?_cons, hane]
    rw [h2, ← ih hm]

theorem scoreOf_rrfScoresSwapped (rrf_k : ℚ) (semanticIds bm25Ids : List String)
    (id : String) :
    scoreOf id (rrfScoresSwapped rrf_k semanticIds bm25Ids)
      = contrib rrf_k semanticIds 1 id + contrib rrf_k bm25Ids 1 id := by
  unfold rrfScoresSwapped
  rw [scoreOf_addList, scoreOf_addList]
  simp [scoreOf]
  ring

theorem keys_rrfScoresSwapped (rrf_k : ℚ) (semanticIds bm25Ids : List String) :
    (rrfScoresSwapped rrf_k semanticIds bm25Ids).map (fun kv => kv.1)
      = firstSeen (bm25Ids ++ semanticIds) := by
  unfold rrfScoresSwapped firstSeen
  rw [keys_addList, keys_addList, List.foldl_append]
  rfl

/-! ## Lemmas: contribution bounds -/

theorem contrib_eq_zero (rrf_k : ℚ) (L : List String) (r : Nat) (id : String)
    (h : id ∉ L) : contrib rrf_k L r id = 0 := by
  induction L generalizing r with
  | nil => rfl
  | cons a rest ih =>
    simp only [List.mem_cons, not_or] at h
    simp only [contrib]
    rw [if_neg (fun hh => h.1 hh.symm), ih r.succ h.2, add_zero]

theorem contrib_nonneg (rrf_k : ℚ) (hk : 0 < rrf_k) (L : List String)
    (r : Nat) (id : String) : 0 ≤ contrib rrf_k L r id := by
  induction L generalizing r with
  | nil => simp [contrib]
  | cons a rest ih =>
    simp only [contrib]
    have h1 : (0 : ℚ) ≤ if a = id then 1 / (rrf_k + (r : ℚ)) else 0 := by
      split
      · apply le_of_lt
        apply div_pos one_pos
        have : (0 : ℚ) ≤ (r : ℚ) := Nat.cast_nonneg r
        linarith
      · exact le_refl 0
    exact add_nonneg h1 (ih (r + 1))

theorem contrib_le (rrf_k : ℚ) (hk : 0 < rrf_k) (L : List String) (r : Nat)
    (id : String) (hnd : L.Nodup) :
    contrib rrf_k L r id ≤ 1 / (rrf_k + (r : ℚ)) := by
  have hpos : ∀ n : Nat, (0 : ℚ) < rrf_k + (n : ℚ) := by
    intro n
    have : (0 : ℚ) ≤ (n : ℚ) := Nat.cast_nonneg n
    linarith
  induction L generalizing r with
  | nil =>
    simp only [contrib]
    exact le_of_lt (div_pos one_pos (hpos r))
  | cons a rest ih =>
    rw [List.nodup_cons] at hnd
    simp only [contrib]
    by_cases h : a = id
    · rw [if_pos h]
      have hzero : contrib rrf_k rest (r + 1) id = 0 :=
        contrib_eq_zero rrf_k rest (r + 1) id (h ▸ hnd.1)
      rw [hzero, add_zero]
    · rw [if_neg h, zero_add]
      calc contrib rrf_k rest (r + 1) id
          ≤ 1 / (rrf_k + ((r + 1 : Nat) : ℚ)) := ih (r + 1) hnd.2
        _ ≤ 1 / (rrf_k + (r : ℚ)) := by
            apply one_div_le_one_div_of_le (hpos r)
            push_cast
            linarith

theorem contrib_head_ge (rrf_k : ℚ) (hk : 0 < rrf_k) (L : List String)
    (x : String) (hx : L.head? = some x) :
    1 / (rrf_k + 1) ≤ contrib rrf_k L 1 x := by
  cases L with
  | nil => simp at hx
  | cons a rest =>
    simp only [List.head?_cons, Option.some.injEq] at hx
    simp only [contrib]
    rw [if_pos hx]
    have h2 : 0 ≤ contrib rrf_k rest 2 x := contrib_nonneg rrf_k hk rest 2 x
    push_cast
    linarith

theorem contrib_not_head_le (rrf_k : ℚ) (hk : 0 < rrf_k) (L : List String)
    (y : String) (hnd : L.Nodup) (hy : L.head? ≠ some y) :
    contrib rrf_k L 1 y ≤ 1 / (rrf_k + 2) := by
  cases L with
  | nil =>
    simp only [contrib]
    apply le_of_lt (div_pos one_pos _)
    linarith
  | cons a rest =>
    have ha : a ≠ y := by
      intro h
      exact hy (by simp [h])
    rw [List.nodup_cons] at hnd
    simp only [contrib]
    rw [if_neg ha, zero_add]
    have := contrib_le rrf_k hk rest 2 y hnd.2
    push_cast at this ⊢
    linarith

theorem contrib_head_eq (rrf_k : ℚ) (L : List String) (y : String)
    (hy : L.head? = some y) (hnd : L.Nodup) :
    contrib rrf_k L 1 y = 1 / (rrf_k + 1) := by
  cases L with
  | nil => simp at hy
  | cons a rest =>
    simp only [List.head?_cons, Option.some.injEq] at hy
    rw [List.nodup_cons] at hnd
    simp only [contrib]
    rw [if_pos hy, contrib_eq_zero rrf_k rest 2 y (hy ▸ hnd.1), add_zero]
    norm_num

/-! ## Lemmas: the descending sort -/

/-- Two lists that are permutations of each other, both sorted by score
descending, and on which the score determines the element, are equal. -/
theorem eq_of_perm_of_sortedDesc (l₁ l₂ : List (String × ℚ))
    (hperm : l₁.Perm l₂)
    (h₁ : l₁.Pairwise (fun x y => y.2 ≤ x.2))
    (h₂ : l₂.Pairwise (fun x y => y.2 ≤ x.2))
    (hinj : ∀ x ∈ l₁, ∀ y ∈ l₁, x.2 = y.2 → x = y) : l₁ = l₂ := by
  induction l₁ generalizing l₂ with
  | nil => exact (hperm.nil_eq).symm ▸ rfl
  | cons a t₁ ih =>
    cases l₂ with
    | nil => exact absurd hperm.symm (by simp)
    | cons b t₂ =>
      have hab : a = b := by
        have hbmem : b ∈ a :: t₁ := hperm.mem_iff.mpr (List.mem_cons_self b t₂)
        have hamem : a ∈ b :: t₂ := hperm.mem_iff.mp (List.mem_cons_self a t₁)
        rcases List.mem_cons.mp hbmem with h | h
        · exact h.symm
        · rcases List.mem_cons.mp hamem with h' | h'
          · exact h'
          · have h1 : b.2 ≤ a.2 := List.rel_of_pairwise_cons h₁ h
            have h2 : a.2 ≤ b.2 := List.rel_of_pairwise_cons h₂ h'
            exact hinj a (List.mem_cons_self a t₁) b hbmem (le_antisymm h2 h1)
      subst hab
      have htail : t₁.Perm t₂ := hperm.cons_inv
      have := ih t₂ htail h₁.tail h₂.tail
        (fun x hx y hy h => hinj x (List.mem_cons_of_mem a hx)
          y (List.mem_cons_of_mem a hy) h)
      rw [this]

theorem nodup_keys_rrfScoresSwapped (rrf_k : ℚ)
    (semanticIds bm25Ids : List String) :
    ((rrfScoresSwapped rrf_k semanticIds bm25Ids).map (fun kv => kv.1)).Nodup := by
  rw [keys_rrfScoresSwapped]
  exact nodup_firstSeen _

/-- The two processing orders build the same score dict up to permutation:
same keys (different insertion order) with the same accumulated scores. -/
theorem rrfScores_perm_swapped (rrf_k : ℚ) (semanticIds bm25Ids : List String) :
    (rrfScores rrf_k semanticIds bm25Ids).Perm
      (rrfScoresSwapped rrf_k semanticIds bm25Ids) := by
  have e1 := scoremap_eq_keys_map (rrfScores rrf_k semanticIds bm25Ids)
    (nodup_keys_rrfScores rrf_k semanticIds bm25Ids)
  have e2 := scoremap_eq_keys_map (rrfScoresSwapped rrf_k semanticIds bm25Ids)
    (nodup_keys_rrfScoresSwapped rrf_k semanticIds bm25Ids)
  have hkeys : ((rrfScores rrf_k semanticIds bm25Ids).map (fun kv => kv.1)).Perm
      ((rrfScoresSwapped rrf_k semanticIds bm25Ids).map (fun kv => kv.1)) := by
    rw [keys_rrfScores, keys_rrfScoresSwapped]
    apply (List.perm_ext_iff_of_nodup (nodup_firstSeen _) (nodup_firstSeen _)).mpr
    intro a
    rw [mem_firstSeen, mem_firstSeen, List.mem_append, List.mem_append]
    tauto
  have hfun : ∀ id, scoreOf id (rrfScoresSwapped rrf_k semanticIds bm25Ids)
      = scoreOf id (rrfScores rrf_k semanticIds bm25Ids) := by
    intro id
    rw [scoreOf_rrfScoresSwapped, scoreOf_rrfScores]
  have hp2 : ((rrfScoresSwapped rrf_k semanticIds bm25Ids).map (fun kv => kv.1)).map
        (fun id => (id, scoreOf id (rrfScores rrf_k semanticIds bm25Ids)))
      = ((rrfScoresSwapped rrf_k semanticIds bm25Ids).map (fun kv => kv.1)).map
        (fun id => (id, scoreOf id (rrfScoresSwapped rrf_k semanticIds bm25Ids))) := by
    apply List.map_congr_left
    intro a _
    rw [hfun a]
  have hp1 := hkeys.map
    (fun id => (id, scoreOf id (rrfScores rrf_k semanticIds bm25Ids)))
  rw [hp2] at hp1
  rw [← e1, ← e2] at hp1
  exact hp1

theorem length_filterMap_le_filter {α β : Type} (l : List α) (f : α → Option β)
    (p : α → Bool) (h : ∀ a, (f a).isSome → p a) :
    (l.filterMap f).length ≤ (l.filter p).length := by
  induction l with
  | nil => simp
  | cons a t ih =>
    rw [List.filterMap_cons, List.filter_cons]
    cases hf : f a with
    | none =>
      by_cases hp : p a = true
      · rw [if_pos hp]
        exact le_trans ih (Nat.le_succ _)
      · rw [if_neg hp]
        exact ih
    | some b =>
      have hp : p a := h a (by simp [hf])
      rw [if_pos hp]
      exact Nat.succ_le_succ ih

/-- When every summary is the target of at most one `HAS_SUMMARY` edge
(true of every store the upsert builds, since summary ids are fresh),
hydration returns at most one row per requested id. -/
theorem get_data_tool_length_le {E : Type} (st : Store E) (ids : List String)
    (hw : (st.hasSummary.map (fun e => e.2)).Nodup) :
    (get_data_tool st ids).length ≤ ids.length := by
  unfold get_data_tool
  by_cases h : ids.isEmpty
  · rw [if_pos h]
    simp
  · rw [if_neg h]
    have h1 := length_filterMap_le_filter st.hasSummary
      (fun e =>
        if e.2 ∈ ids then
          (lookupProject st.projects e.1).bind (fun p =>
            (lookupSummary st.summaries e.2).map (fun n =>
              DataRow.mk p.id p.question n.text))
        else none)
      (fun e => e.2 ∈ ids)
      (by
        intro a ha
        dsimp only at ha
        by_cases hmem : a.2 ∈ ids
        · simpa using hmem
        · rw [if_neg hmem] at ha
          simp at ha)
    apply le_trans h1
    have hsub : List.Sublist
        ((st.hasSummary.filter (fun e => e.2 ∈ ids)).map (fun e => e.2))
        (st.hasSummary.map (fun e => e.2)) :=
      (List.filter_sublist _).map _
    have hnd : ((st.hasSummary.filter (fun e => e.2 ∈ ids)).map
        (fun e => e.2)).Nodup := hsub.nodup hw
    have hss : ∀ x ∈ (st.hasSummary.filter (fun e => e.2 ∈ ids)).map
        (fun e => e.2), x ∈ ids := by
      intro x hx
      rcases List.mem_map.mp hx with ⟨e, he, hex⟩
      have := List.of_mem_filter he
      simpa [hex] using this
    have h2 : (st.hasSummary.filter (fun e => e.2 ∈ ids)).length
        = ((st.hasSummary.filter (fun e => e.2 ∈ ids)).map (fun e => e.2)).length := by
      rw [List.length_map]
    rw [h2]
    calc ((st.hasSummary.filter (fun e => e.2 ∈ ids)).map (fun e => e.2)).length
        = ((st.hasSummary.filter (fun e => e.2 ∈ ids)).map (fun e => e.2)).toFinset.card :=
          (List.toFinset_card_of_nodup hnd).symm
      _ ≤ ids.toFinset.card := by
          apply Finset.card_le_card
          intro x hx
          rw [List.mem_toFinset] at hx
          rw [List.mem_toFinset]
          exact hss x hx
      _ ≤ ids.length := List.toFinset_card_le ids

/-! ## Claim theorems -/

/-- C3: `hybrid_rrf_search` hydrates exactly the fusion of the two adapter
lists requested at `2 * top_k` with `min_score = 0`; the accumulated score
of any item is the sum of its per-list contributions `1/(rrf_k + rank)`
(1-based ranks), an item absent from one list receiving only the other
list's contribution; and both the fused id list and the hydrated result
hold at most `top_k` items, regardless of how large the input pools are. -/
theorem hybrid_rrf_search_spec {E : Type} (semAdapter bm25Adapter : Adapter)
    (st : Store E) (query_text : String) (top_k : Nat) (rrf_k : ℚ)
    (semIds bm25Ids : List String) (id id2 : String)
    (hsem : semIds = (semAdapter query_text (2 * top_k) 0).map
      (fun h => h.node_id))
    (hbm : bm25Ids = (bm25Adapter query_text (2 * top_k) 0).map
      (fun h => h.node_id))
    (habs : id2 ∉ bm25Ids)
    (hw : (st.hasSummary.map (fun e => e.2)).Nodup) :
    hybrid_rrf_search semAdapter bm25Adapter st query_text top_k rrf_k
      = get_data_tool st (hybridFuseIds top_k rrf_k semIds bm25Ids)
    ∧ scoreOf id (rrfScores rrf_k semIds bm25Ids)
      = contrib rrf_k semIds 1 id + contrib rrf_k bm25Ids 1 id
    ∧ scoreOf id2 (rrfScores rrf_k semIds bm25Ids)
      = contrib rrf_k semIds 1 id2
    ∧ (hybridFuseIds top_k rrf_k semIds bm25Ids).length ≤ top_k
    ∧ (hybrid_rrf_search semAdapter bm25Adapter st query_text top_k
        rrf_k).length ≤ top_k := by
  subst hsem hbm
  have hlen : (hybridFuseIds top_k rrf_k
      ((semAdapter query_text (2 * top_k) 0).map (fun h => h.node_id))
      ((bm25Adapter query_text (2 * top_k) 0).map (fun h => h.node_id))).length
      ≤ top_k := by
    unfold hybridFuseIds
    rw [List.length_map, List.length_take]
    exact min_le_left _ _
  have heq : hybrid_rrf_search semAdapter bm25Adapter st query_text top_k rrf_k
      = get_data_tool st (hybridFuseIds top_k rrf_k
        ((semAdapter query_text (2 * top_k) 0).map (fun h => h.node_id))
        ((bm25Adapter query_text (2 * top_k) 0).map (fun h => h.node_id))) := by
    unfold hybrid_rrf_search
    rw [Nat.mul_comm top_k 2]
  refine ⟨heq, scoreOf_rrfScores rrf_k _ _ id, ?_, hlen, ?_⟩
  · rw [scoreOf_rrfScores, contrib_eq_zero rrf_k _ 1 id2 habs, add_zero]
  · rw [heq]
    exact le_trans (get_data_tool_length_le st _ hw) hlen

theorem hybrid_rrf_search_spec_witness :
    ("x" : String) ∉ (["b", "c", "d"] : List String)
    ∧ ((["a", "b", "c"] : List String)
          = ([SearchHit.mk "a" "ta" 9, SearchHit.mk "b" "tb" 8,
              SearchHit.mk "c" "tc" 7].map (fun h => h.node_id))
      ∧ (["b", "c", "d"] : List String)
          = ([SearchHit.mk "b" "tb" 5, SearchHit.mk "c" "tc" 4,
              SearchHit.mk "d" "td" 3].map (fun h => h.node_id)))
    ∧ (hybrid_rrf_search (fun _ _ _ => [SearchHit.mk "a" "ta" 9,
          SearchHit.mk "b" "tb" 8, SearchHit.mk "c" "tc" 7])
        (fun _ _ _ => [SearchHit.mk "b" "tb" 5, SearchHit.mk "c" "tc" 4,
          SearchHit.mk "d" "td" 3])
        (Store.mk [ProjectNode.mk "p" "N" "Q" 0]
          [SummaryNode.mk "a" "ta" "e" 0] [("p", "a")] [("p", "a")] [])
        "q" 1 60
        = get_data_tool
            (Store.mk [ProjectNode.mk "p" "N" "Q" 0]
              [SummaryNode.mk "a" "ta" "e" 0] [("p", "a")] [("p", "a")] [])
            (hybridFuseIds 1 60 ["a", "b", "c"] ["b", "c", "d"])
      ∧ scoreOf "b" (rrfScores 60 ["a", "b", "c"] ["b", "c", "d"])
          = contrib 60 ["a", "b", "c"] 1 "b" + contrib 60 ["b", "c", "d"] 1 "b"
      ∧ scoreOf "x" (rrfScores 60 ["a", "b", "c"] ["b", "c", "d"])
          = contrib 60 ["a", "b", "c"] 1 "x"
      ∧ (hybridFuseIds 1 60 ["a", "b", "c"] ["b", "c", "d"]).length ≤ 1
      ∧ (hybrid_rrf_search (fun _ _ _ => [SearchHit.mk "a" "ta" 9,
            SearchHit.mk "b" "tb" 8, SearchHit.mk "c" "tc" 7])
          (fun _ _ _ => [SearchHit.mk "b" "tb" 5, SearchHit.mk "c" "tc" 4,
            SearchHit.mk "d" "td" 3])
          (Store.mk [ProjectNode.mk "p" "N" "Q" 0]
            [SummaryNode.mk "a" "ta" "e" 0] [("p", "a")] [("p", "a")] [])
          "q" 1 60).length ≤ 1) :=
  ⟨by decide, ⟨by decide, by decide⟩,
   hybrid_rrf_search_spec
     (fun _ _ _ => [SearchHit.mk "a" "ta" 9, SearchHit.mk "b" "tb" 8,
       SearchHit.mk "c" "tc" 7])
     (fun _ _ _ => [SearchHit.mk "b" "tb" 5, SearchHit.mk "c" "tc" 4,
       SearchHit.mk "d" "td" 3])
     (Store.mk [ProjectNode.mk "p" "N" "Q" 0]
       [SummaryNode.mk "a" "ta" "e" 0] [("p", "a")] [("p", "a")] [])
     "q" 1 60 ["a", "b", "c"] ["b", "c", "d"] "b" "x"
     (by decide) (by decide) (by decide) (by decide)⟩

theorem countLatest_upsert {E : Type} (embed : String → E) (now : Nat)
    (name question summary project_id summary_id : String) (st : Store E) :
    countLatest (upsert_project_tool embed now name question summary
        project_id summary_id st).1 project_id = 1 := by
  unfold countLatest upsert_project_tool
  simp only [List.filter_append]
  have h1 : (st.hasLatest.filter (fun e => e.1 ≠ project_id)).filter
      (fun e => e.1 = project_id) = [] := by
    rw [List.filter_eq_nil_iff]
    intro a ha
    have h := List.of_mem_filter ha
    simp only [decide_eq_true_eq] at h ⊢
    simp [h]
  rw [h1]
  simp

theorem upsertSeq_cons {E : Type} (embed : String → E) (project_id : String)
    (c : UpsertCall) (calls : List UpsertCall) (st : Store E) :
    upsertSeq embed project_id (c :: calls) st
      = upsertSeq embed project_id calls
          (upsert_project_tool embed c.now c.name c.question c.summary
            project_id c.summary_id st).1 := rfl

theorem countLatest_upsertSeq {E : Type} (embed : String → E)
    (project_id : String) (calls : List UpsertCall) (st : Store E)
    (h : countLatest st project_id = 1) :
    countLatest (upsertSeq embed project_id calls st) project_id = 1 := by
  induction calls generalizing st with
  | nil => exact h
  | cons c rest ih =>
    rw [upsertSeq_cons]
    exact ih _ (countLatest_upsert embed c.now c.name c.question c.summary
      project_id c.summary_id st)

/-- C1: starting from any store in which the project has at most one
`HAS_LATEST_SUMMARY` edge (the single-row domain of the Cypher statement),
every nonempty prefix of a sequence of upserts on the same `project_id`
leaves exactly one latest edge; each individual upsert removes the old
latest edge while preserving the old Summary node and its `HAS_SUMMARY`
edge, and links the newly created Summary as latest. -/
theorem upsert_exactly_one_latest {E : Type} (embed : String → E)
    (project_id : String) (st : Store E)
    (hinv : countLatest st project_id ≤ 1)
    (calls : List UpsertCall) (n : Nat) (hn : 0 < n) (hlen : n ≤ calls.length)
    (now : Nat) (name question summary summary_id old : String)
    (hold : (project_id, old) ∈ st.hasLatest) (hfresh : old ≠ summary_id)
    (snode : SummaryNode E) (hsnode : snode ∈ st.summaries)
    (edge : String × String) (hedge : edge ∈ st.hasSummary) :
    countLatest (upsertSeq embed project_id (calls.take n) st) project_id = 1
    ∧ countLatest (upsert_project_tool embed now name question summary
        project_id summary_id st).1 project_id = 1
    ∧ (project_id, old) ∉ (upsert_project_tool embed now name question summary
        project_id summary_id st).1.hasLatest
    ∧ snode ∈ (upsert_project_tool embed now name question summary
        project_id summary_id st).1.summaries
    ∧ edge ∈ (upsert_project_tool embed now name question summary
        project_id summary_id st).1.hasSummary
    ∧ (project_id, summary_id) ∈ (upsert_project_tool embed now name question
        summary project_id summary_id st).1.hasLatest := by
  refine ⟨?_, countLatest_upsert embed now name question summary project_id
    summary_id st, ?_, ?_, ?_, ?_⟩
  · cases calls with
    | nil => simp at hlen; omega
    | cons c rest =>
      cases n with
      | zero => omega
      | succ m =>
        rw [List.take_succ_cons, upsertSeq_cons]
        exact countLatest_upsertSeq embed project_id (rest.take m) _
          (countLatest_upsert embed c.now c.name c.question c.summary
            project_id c.summary_id st)
  · unfold upsert_project_tool
    simp only [List.mem_append, not_or]
    constructor
    · intro hmem
      have h := List.of_mem_filter hmem
      simp at h
    · simp only [List.mem_singleton, Prod.mk.injEq]
      intro h
      exact hfresh h.2
  · unfold upsert_project_tool
    exact List.mem_append_left _ hsnode
  · unfold upsert_project_tool
    dsimp only
    split
    · exact hedge
    · exact List.mem_append_left _ hedge
  · unfold upsert_project_tool
    exact List.mem_append_right _ (List.mem_singleton.mpr rfl)

theorem upsert_exactly_one_latest_witness :
    countLatest (Store.mk [ProjectNode.mk "p" "N" "Q" 0]
        [SummaryNode.mk "s0" "t0" "e0" 0] [("p", "s0")] [("p", "s0")] []) "p" ≤ 1
    ∧ (0 : Nat) < 1 ∧ (1 : Nat) ≤ [UpsertCall.mk "n2" "q2" "sum2" "s1" 1].length
    ∧ ("p", "s0") ∈ [("p", "s0")] ∧ "s0" ≠ "s1"
    ∧ (countLatest (upsertSeq (fun s : String => s) "p"
          ([UpsertCall.mk "n2" "q2" "sum2" "s1" 1].take 1)
          (Store.mk [ProjectNode.mk "p" "N" "Q" 0]
            [SummaryNode.mk "s0" "t0" "e0" 0] [("p", "s0")] [("p", "s0")] []))
          "p" = 1
      ∧ countLatest (upsert_project_tool (fun s : String => s) 1 "n2" "q2"
          "sum2" "p" "s1"
          (Store.mk [ProjectNode.mk "p" "N" "Q" 0]
            [SummaryNode.mk "s0" "t0" "e0" 0] [("p", "s0")] [("p", "s0")] [])).1
          "p" = 1
      ∧ ("p", "s0") ∉ (upsert_project_tool (fun s : String => s) 1 "n2" "q2"
          "sum2" "p" "s1"
          (Store.mk [ProjectNode.mk "p" "N" "Q" 0]
            [SummaryNode.mk "s0" "t0" "e0" 0] [("p", "s0")] [("p", "s0")] [])).1.hasLatest
      ∧ SummaryNode.mk "s0" "t0" "e0" 0
          ∈ (upsert_project_tool (fun s : String => s) 1 "n2" "q2" "sum2" "p" "s1"
            (Store.mk [ProjectNode.mk "p" "N" "Q" 0]
              [SummaryNode.mk "s0" "t0" "e0" 0] [("p", "s0")] [("p", "s0")] [])).1.summaries
      ∧ ("p", "s0")
          ∈ (upsert_project_tool (fun s : String => s) 1 "n2" "q2" "sum2" "p" "s1"
            (Store.mk [ProjectNode.mk "p" "N" "Q" 0]
              [SummaryNode.mk "s0" "t0" "e0" 0] [("p", "s0")] [("p", "s0")] [])).1.hasSummary
      ∧ ("p", "s1")
          ∈ (upsert_project_tool (fun s : String => s) 1 "n2" "q2" "sum2" "p" "s1"
            (Store.mk [ProjectNode.mk "p" "N" "Q" 0]
              [SummaryNode.mk "s0" "t0" "e0" 0] [("p", "s0")] [("p", "s0")] [])).1.hasLatest) :=
  ⟨by decide, by decide, by decide, by decide, by decide,
   upsert_exactly_one_latest (fun s => s) "p"
     (Store.mk [ProjectNode.mk "p" "N" "Q" 0]
       [SummaryNode.mk "s0" "t0" "e0" 0] [("p", "s0")] [("p", "s0")] [])
     (by decide) [UpsertCall.mk "n2" "q2" "sum2" "s1" 1] 1 (by decide)
     (by decide) 1 "n2" "q2" "sum2" "s1" "s0" (by decide) (by decide)
     (SummaryNode.mk "s0" "t0" "e0" 0) (by decide) ("p", "s0") (by decide)⟩

/-- C4 (amended): the fused id ranking — before hydration — is sorted by
accumulated RRF score descending, elements with equal score keeping their
first-seen order (the dict's key order is first-seen across the semantic
list followed by the BM25 list, and the sort is stable on it).  Hydration
through `get_data_tool` returns rows in the store's `HAS_SUMMARY` scan
order, which need not preserve this ranking (see the counterexample). -/
theorem fused_ranking_sorted_stable (rrf_k : ℚ)
    (semanticIds bm25Ids : List String) (a b : String × ℚ)
    (hsub : List.Sublist [a, b] (rrfScores rrf_k semanticIds bm25Ids))
    (htie : b.2 ≤ a.2) :
    (rankedIds rrf_k semanticIds bm25Ids).Pairwise (fun x y => y.2 ≤ x.2)
    ∧ List.Sublist [a, b] (rankedIds rrf_k semanticIds bm25Ids)
    ∧ (rrfScores rrf_k semanticIds bm25Ids).map (fun kv => kv.1)
        = firstSeen (semanticIds ++ bm25Ids) :=
  ⟨List.sorted_insertionSort scoreDesc _,
   List.pair_sublist_insertionSort htie hsub,
   keys_rrfScores rrf_k semanticIds bm25Ids⟩

theorem fused_ranking_sorted_stable_witness :
    List.Sublist [(("a", (1 : ℚ)/61) : String × ℚ), ("b", (1 : ℚ)/61)]
        (rrfScores 60 ["a"] ["b"])
    ∧ ((("b", (1 : ℚ)/61) : String × ℚ).2 ≤ (("a", (1 : ℚ)/61) : String × ℚ).2)
    ∧ ((rankedIds 60 ["a"] ["b"]).Pairwise (fun x y => y.2 ≤ x.2)
      ∧ List.Sublist [(("a", (1 : ℚ)/61) : String × ℚ), ("b", (1 : ℚ)/61)]
          (rankedIds 60 ["a"] ["b"])
      ∧ (rrfScores 60 ["a"] ["b"]).map (fun kv => kv.1)
          = firstSeen (["a"] ++ ["b"])) := by
  have hEq : rrfScores 60 ["a"] ["b"] = [("a", (1 : ℚ)/61), ("b", (1 : ℚ)/61)] := by
    simp [rrfScores, addList, addContribution] <;> norm_num
  have hsub : List.Sublist [(("a", (1 : ℚ)/61) : String × ℚ), ("b", (1 : ℚ)/61)]
      (rrfScores 60 ["a"] ["b"]) := by
    rw [hEq]
  have htie : ((("b", (1 : ℚ)/61) : String × ℚ).2
      ≤ (("a", (1 : ℚ)/61) : String × ℚ).2) := le_refl _
  exact ⟨hsub, htie,
    fused_ranking_sorted_stable 60 ["a"] ["b"] ("a", 1/61) ("b", 1/61) hsub htie⟩

/-- C4 (counterexample): the list handed back to the caller is NOT in
fused-score order.  With the vector list `[s2]` and the BM25 list
`[s2, s1]`, the fused ranking is `[s2, s1]` and `s2`'s accumulated score
strictly exceeds `s1`'s; but the store's `HAS_SUMMARY` edges are scanned
in creation order `[(P,s1), (P,s2)]`, so `get_data_tool` returns `s1`'s
row first — the hydrated output reverses the fused ranking (the Cypher
`WHERE n.id IN $node_ids` filter has no `ORDER BY` and ignores the order
of `node_ids`). -/
theorem hybrid_search_hydration_order_counterexample :
    hybrid_rrf_search (fun _ _ _ => [SearchHit.mk "s2" "t2" 1])
        (fun _ _ _ => [SearchHit.mk "s2" "t2" 1, SearchHit.mk "s1" "t1" (1/2)])
        (Store.mk [ProjectNode.mk "P" "N" "why" 0]
          [SummaryNode.mk "s1" "t1" "e1" 0, SummaryNode.mk "s2" "t2" "e2" 1]
          [("P", "s2")] [("P", "s1"), ("P", "s2")] []) "q" 5 60
      = [DataRow.mk "P" "why" "t1", DataRow.mk "P" "why" "t2"]
    ∧ hybridFuseIds 5 60 ["s2"] ["s2", "s1"] = ["s2", "s1"]
    ∧ scoreOf "s1" (rrfScores 60 ["s2"] ["s2", "s1"])
        < scoreOf "s2" (rrfScores 60 ["s2"] ["s2", "s1"]) := by
  refine ⟨?_, ?_, ?_⟩
  · simp only [hybrid_rrf_search, hybridFuseIds, rankedIds, rrfScores, addList,
      addContribution, get_data_tool, List.insertionSort, List.orderedInsert,
      scoreDesc, List.filterMap_cons, lookupProject, lookupSummary]
    norm_num
    simp [List.filterMap_cons, lookupProject, lookupSummary]
  · simp [hybridFuseIds, rankedIds, rrfScores, addList, addContribution,
      List.insertionSort, List.orderedInsert, scoreDesc] <;> norm_num [scoreDesc]
  · simp [scoreOf, rrfScores, addList, addContribution] <;> norm_num

/-- C5 (counterexample): with ties, the fused output depends on which
adapter's list is processed first.  On the semantic list `["a"]` and the
BM25 list `["b"]` both items accumulate the same score `1/61`; processing
the semantic list first yields `["a", "b"]`, processing the BM25 list
first yields `["b", "a"]`. -/
theorem fuse_processing_order_counterexample :
    hybridFuseIds 2 60 ["a"] ["b"] = ["a", "b"]
    ∧ hybridFuseIdsSwapped 2 60 ["a"] ["b"] = ["b", "a"]
    ∧ hybridFuseIds 2 60 ["a"] ["b"] ≠ hybridFuseIdsSwapped 2 60 ["a"] ["b"]
    ∧ scoreOf "a" (rrfScores 60 ["a"] ["b"])
        = scoreOf "b" (rrfScores 60 ["a"] ["b"]) := by
  refine ⟨?_, ?_, ?_, ?_⟩
  · simp [hybridFuseIds, rankedIds, rrfScores, addList, addContribution,
      List.insertionSort, List.orderedInsert, scoreDesc] <;> norm_num [scoreDesc]
  · simp [hybridFuseIdsSwapped, rrfScoresSwapped, addList, addContribution,
      List.insertionSort, List.orderedInsert, scoreDesc] <;> norm_num [scoreDesc]
  · simp [hybridFuseIds, hybridFuseIdsSwapped, rankedIds, rrfScores,
      rrfScoresSwapped, addList, addContribution, List.insertionSort,
      List.orderedInsert, scoreDesc] <;> norm_num [scoreDesc]
  · simp [scoreOf, rrfScores, addList, addContribution] <;> norm_num

/-- C5 (amended): for fixed input lists the fusion is a pure function; the
accumulated score of every item is independent of the processing order;
and whenever no two distinct items accumulate equal scores, the full fused
output is identical no matter which list is processed first.  (With ties,
the tied items' relative order follows insertion order and may differ —
see the counterexample.) -/
theorem fuse_order_independent (top_k : Nat) (rrf_k : ℚ)
    (semanticIds bm25Ids : List String) (id : String)
    (hdist : ∀ x ∈ rrfScores rrf_k semanticIds bm25Ids,
      ∀ y ∈ rrfScores rrf_k semanticIds bm25Ids, x.2 = y.2 → x.1 = y.1) :
    scoreOf id (rrfScoresSwapped rrf_k semanticIds bm25Ids)
      = scoreOf id (rrfScores rrf_k semanticIds bm25Ids)
    ∧ hybridFuseIdsSwapped top_k rrf_k semanticIds bm25Ids
      = hybridFuseIds top_k rrf_k semanticIds bm25Ids := by
  constructor
  · rw [scoreOf_rrfScoresSwapped, scoreOf_rrfScores]
  · have hperm := rrfScores_perm_swapped rrf_k semanticIds bm25Ids
    have hpermSort : List.Perm
        (List.insertionSort scoreDesc (rrfScores rrf_k semanticIds bm25Ids))
        (List.insertionSort scoreDesc (rrfScoresSwapped rrf_k semanticIds bm25Ids)) :=
      ((List.perm_insertionSort scoreDesc _).trans hperm).trans
        (List.perm_insertionSort scoreDesc _).symm
    have hinj : ∀ x ∈ List.insertionSort scoreDesc
        (rrfScores rrf_k semanticIds bm25Ids),
        ∀ y ∈ List.insertionSort scoreDesc
          (rrfScores rrf_k semanticIds bm25Ids), x.2 = y.2 → x = y := by
      intro x hx y hy hxy
      have hx2 := (List.perm_insertionSort scoreDesc _).mem_iff.mp hx
      have hy2 := (List.perm_insertionSort scoreDesc _).mem_iff.mp hy
      have h1 := hdist x hx2 y hy2 hxy
      exact Prod.ext h1 hxy
    have heq := eq_of_perm_of_sortedDesc _ _ hpermSort
      (List.sorted_insertionSort scoreDesc _)
      (List.sorted_insertionSort scoreDesc _) hinj
    unfold hybridFuseIdsSwapped hybridFuseIds rankedIds
    rw [← heq]

theorem fuse_order_independent_witness :
    scoreOf "a" (rrfScoresSwapped 60 ["a", "b"] ["a"])
      = scoreOf "a" (rrfScores 60 ["a", "b"] ["a"])
    ∧ hybridFuseIdsSwapped 3 60 ["a", "b"] ["a"]
      = hybridFuseIds 3 60 ["a", "b"] ["a"] := by
  apply fuse_order_independent 3 60 ["a", "b"] ["a"] "a"
  have hEq : rrfScores 60 ["a", "b"] ["a"]
      = [("a", (2 : ℚ)/61), ("b", (1 : ℚ)/62)] := by
    simp [rrfScores, addList, addContribution] <;> norm_num
  rw [hEq]
  intro x hx y hy hxy
  rcases List.mem_cons.mp hx with h1 | h1
  · rcases List.mem_cons.mp hy with h2 | h2
    · subst h1; subst h2; rfl
    · rw [List.mem_singleton] at h2
      subst h1; subst h2
      exfalso; norm_num at hxy
  · rw [List.mem_singleton] at h1
    rcases List.mem_cons.mp hy with h2 | h2
    · subst h1; subst h2
      exfalso; norm_num at hxy
    · rw [List.mem_singleton] at h2
      subst h1; subst h2; rfl

/-- C6 (amended): with `rrf_k > 0`, an item at rank 1 of both input lists
accumulates a strictly higher RRF score than any item at rank 1 of exactly
one list (in any pair of duplicate-free lists); and the spec's scenario —
vector list `[b, c]`, lexical list `[a, b]`, `rrf_k = 60` — fuses to
`b, a, c`, where `b`'s combined score is `1/61 + 1/62` (rank 1 in the
vector list, rank 2 in the lexical list), not the claimed `1/61 + 1/61`. -/
theorem rrf_rank_one_dominance (rrf_k : ℚ) (hk : 0 < rrf_k)
    (sbIds bbIds s1Ids b1Ids : List String) (x y : String)
    (hx1 : sbIds.head? = some x) (hx2 : bbIds.head? = some x)
    (hnd1 : s1Ids.Nodup) (hnd2 : b1Ids.Nodup)
    (hy : (s1Ids.head? = some y ∧ b1Ids.head? ≠ some y)
        ∨ (b1Ids.head? = some y ∧ s1Ids.head? ≠ some y)) :
    scoreOf y (rrfScores rrf_k s1Ids b1Ids)
      < scoreOf x (rrfScores rrf_k sbIds bbIds)
    ∧ hybridFuseIds 3 60 ["b", "c"] ["a", "b"] = ["b", "a", "c"]
    ∧ scoreOf "b" (rrfScores 60 ["b", "c"] ["a", "b"]) = 1/61 + 1/62 := by
  refine ⟨?_,
    by simp [hybridFuseIds, rankedIds, rrfScores, addList, addContribution,
      List.insertionSort, List.orderedInsert, scoreDesc] <;> norm_num [scoreDesc],
    by simp [scoreOf, rrfScores, addList, addContribution] <;> norm_num⟩
  rw [scoreOf_rrfScores, scoreOf_rrfScores]
  have hxs := contrib_head_ge rrf_k hk sbIds x hx1
  have hxb := contrib_head_ge rrf_k hk bbIds x hx2
  have hlt : 1 / (rrf_k + 2) < 1 / (rrf_k + 1) := by
    apply one_div_lt_one_div_of_lt <;> linarith
  rcases hy with ⟨hyh, hyn⟩ | ⟨hyh, hyn⟩
  · have h1 := contrib_head_eq rrf_k s1Ids y hyh hnd1
    have h2 := contrib_not_head_le rrf_k hk b1Ids y hnd2 hyn
    linarith
  · have h1 := contrib_head_eq rrf_k b1Ids y hyh hnd2
    have h2 := contrib_not_head_le rrf_k hk s1Ids y hnd1 hyn
    linarith

theorem rrf_rank_one_dominance_witness :
    (0 : ℚ) < 60
    ∧ (["x"] : List String).head? = some "x"
    ∧ (["y"] : List String).Nodup
    ∧ (scoreOf "y" (rrfScores 60 ["y"] [])
        < scoreOf "x" (rrfScores 60 ["x"] ["x"])
      ∧ hybridFuseIds 3 60 ["b", "c"] ["a", "b"] = ["b", "a", "c"]
      ∧ scoreOf "b" (rrfScores 60 ["b", "c"] ["a", "b"]) = 1/61 + 1/62) :=
  ⟨by norm_num, by decide, by decide,
   rrf_rank_one_dominance 60 (by norm_num) ["x"] ["x"] ["y"] [] "x" "y"
     (by decide) (by decide) (by decide) (by decide)
     (Or.inl ⟨by decide, by decide⟩)⟩

/-- C6 (counterexample): in the spec's scenario the fused order is indeed
`b, a, c`, but `b`'s combined score is `1/61 + 1/62` (rank 1 in the vector
list, rank 2 in the lexical list), not `1/61 + 1/61` as the claim states. -/
theorem rrf_scenario_score_counterexample :
    scoreOf "b" (rrfScores 60 ["b", "c"] ["a", "b"]) ≠ 1/61 + 1/61
    ∧ scoreOf "b" (rrfScores 60 ["b", "c"] ["a", "b"]) = 1/61 + 1/62 :=
  ⟨by simp [scoreOf, rrfScores, addList, addContribution] <;> norm_num,
   by simp [scoreOf, rrfScores, addList, addContribution] <;> norm_num⟩

/-- C9: `delete_project_tool` always reports success — also when the
project does not exist — and is idempotent: a second call on the same
`project_id` returns the same store state and the same result as the
first. -/
theorem delete_project_tool_idempotent {E : Type} (st : Store E)
    (project_id : String) :
    (delete_project_tool project_id st).2 = true
    ∧ delete_project_tool project_id (delete_project_tool project_id st).1
        = delete_project_tool project_id st := by
  refine ⟨rfl, ?_⟩
  simp only [delete_project_tool, List.filter_filter, Prod.mk.injEq, and_true]
  congr 1 <;> · apply List.filter_congr; intro x _; simp

/-- C2 (code bug): `delete_project_tool` runs
`MATCH (p:Project {id: $project_id}) DETACH DELETE p`, which removes only
the Project node and the relationships incident to it.  On a store holding
project `p1` with an older summary `s0`, the latest summary `s1` and the
version link between them, deletion leaves both Summary nodes and the
`PREVIOUS_VERSION` edge in the store — contradicting the claim (and the
tool's own description, which says it deletes the project's summary). -/
theorem delete_project_tool_leaves_history :
    delete_project_tool "p1"
        (Store.mk [ProjectNode.mk "p1" "Proj" "why" 0]
          [SummaryNode.mk "s0" "old text" "emb0" 0,
           SummaryNode.mk "s1" "new text" "emb1" 1]
          [("p1", "s1")] [("p1", "s0"), ("p1", "s1")] [("s1", "s0")])
      = (Store.mk []
          [SummaryNode.mk "s0" "old text" "emb0" 0,
           SummaryNode.mk "s1" "new text" "emb1" 1]
          [] [] [("s1", "s0")], true) := by
  rfl

/-- C10: the upsert computes the stored embedding from
`question ++ "\n" ++ summary` (not from the summary alone) while storing
only `summary` as the node's text; hence, for an embedding function that
distinguishes distinct inputs, two upserts with the same summary but
different questions store different embeddings for the same text. -/
theorem upsert_embeds_question_and_summary {E : Type} (embed : String → E)
    (hinj : Function.Injective embed) (now : Nat)
    (name q1 q2 s pid sid1 sid2 : String) (st1 st2 : Store E)
    (hq : q1 ≠ q2) :
    SummaryNode.mk sid1 s (embed (q1 ++ "\n" ++ s)) now
        ∈ (upsert_project_tool embed now name q1 s pid sid1 st1).1.summaries
    ∧ SummaryNode.mk sid2 s (embed (q2 ++ "\n" ++ s)) now
        ∈ (upsert_project_tool embed now name q2 s pid sid2 st2).1.summaries
    ∧ embed (q1 ++ "\n" ++ s) ≠ embed (q2 ++ "\n" ++ s) := by
  refine ⟨?_, ?_, ?_⟩
  · simp [upsert_project_tool]
  · simp [upsert_project_tool]
  · intro h
    apply hq
    have h2 := hinj h
    have h3 := congrArg String.data h2
    simp only [String.data_append] at h3
    exact String.ext (List.append_cancel_right
      (List.append_cancel_right h3))

theorem upsert_embeds_question_and_summary_witness :
    Function.Injective (fun s : String => s)
    ∧ ("why a" : String) ≠ "why b"
    ∧ (SummaryNode.mk "sid1" "same summary" ("why a" ++ "\n" ++ "same summary") 7
        ∈ ((upsert_project_tool (fun s : String => s) 7 "n" "why a"
              "same summary" "p" "sid1" (Store.empty String)).1.summaries)
      ∧ SummaryNode.mk "sid2" "same summary" ("why b" ++ "\n" ++ "same summary") 7
        ∈ ((upsert_project_tool (fun s : String => s) 7 "n" "why b"
              "same summary" "p" "sid2" (Store.empty String)).1.summaries)
      ∧ ("why a" ++ "\n" ++ "same summary" : String)
          ≠ ("why b" ++ "\n" ++ "same summary")) :=
  ⟨fun a b h => h, by decide,
   upsert_embeds_question_and_summary (fun s => s) (fun a b h => h) 7
     "n" "why a" "why b" "same summary" "p" "sid1" "sid2"
     (Store.empty String) (Store.empty String) (by decide)⟩

/-- C8: the reranking pass hands the scorer exactly one
`(query_text, candidate.summary)` pair per candidate, returns a list that
is sorted descending by the scorer's value and holds `min top_k
(number of candidates)` entries, each of which is one of the scored
candidates; and on an empty candidate list it returns `[]` and builds no
scorer call at all. -/
theorem rerank_spec (scorer : String → String → ℚ) (q : String)
    (candidates : List DataRow) (top_k : Nat) (r : ScoredRow)
    (hr : r ∈ rerankPass scorer q candidates top_k) :
    rerankScorerCalls q candidates = candidates.map (fun c => (q, c.summary))
    ∧ (rerankScorerCalls q candidates).length = candidates.length
    ∧ (rerankPass scorer q candidates top_k).length = min top_k candidates.length
    ∧ (rerankPass scorer q candidates top_k).Pairwise
        (fun a b => b.cross_score ≤ a.cross_score)
    ∧ r ∈ candidates.map (fun c =>
        ScoredRow.mk c.id c.question c.summary (scorer q c.summary))
    ∧ rerankPass scorer q [] top_k = []
    ∧ rerankScorerCalls q [] = [] := by
  refine ⟨?_, ?_, ?_, ?_, ?_, rfl, rfl⟩
  · unfold rerankScorerCalls
    by_cases h : candidates.isEmpty
    · rw [if_pos h, List.isEmpty_iff.mp h]
      rfl
    · rw [if_neg h]
  · unfold rerankScorerCalls
    by_cases h : candidates.isEmpty
    · rw [if_pos h, List.isEmpty_iff.mp h]
      rfl
    · rw [if_neg h, List.length_map]
  · unfold rerankPass
    by_cases h : candidates.isEmpty
    · rw [if_pos h, List.isEmpty_iff.mp h]
      simp
    · rw [if_neg h]
      rw [List.length_take,
        (List.perm_insertionSort crossDesc _).length_eq, List.length_map]
  · unfold rerankPass
    by_cases h : candidates.isEmpty
    · rw [if_pos h]
      exact List.Pairwise.nil
    · rw [if_neg h]
      exact List.Pairwise.sublist (List.take_sublist top_k _)
        (List.sorted_insertionSort crossDesc _)
  · unfold rerankPass at hr
    by_cases h : candidates.isEmpty
    · rw [if_pos h] at hr
      exact absurd hr (List.not_mem_nil r)
    · rw [if_neg h] at hr
      have h2 := List.mem_of_mem_take hr
      exact (List.perm_insertionSort crossDesc _).mem_iff.mp h2

theorem rerank_spec_witness :
    ScoredRow.mk "P" "why" "bbbb" 4
        ∈ rerankPass (fun _ d => (d.length : ℚ)) "q"
            [DataRow.mk "P" "why" "aa", DataRow.mk "P" "why" "bbbb"] 1
    ∧ (rerankScorerCalls "q" [DataRow.mk "P" "why" "aa", DataRow.mk "P" "why" "bbbb"]
        = [DataRow.mk "P" "why" "aa", DataRow.mk "P" "why" "bbbb"].map
            (fun c => ("q", c.summary))
      ∧ (rerankScorerCalls "q"
          [DataRow.mk "P" "why" "aa", DataRow.mk "P" "why" "bbbb"]).length
        = [DataRow.mk "P" "why" "aa", DataRow.mk "P" "why" "bbbb"].length
      ∧ (rerankPass (fun _ d => (d.length : ℚ)) "q"
          [DataRow.mk "P" "why" "aa", DataRow.mk "P" "why" "bbbb"] 1).length
        = min 1 [DataRow.mk "P" "why" "aa", DataRow.mk "P" "why" "bbbb"].length
      ∧ (rerankPass (fun _ d => (d.length : ℚ)) "q"
          [DataRow.mk "P" "why" "aa", DataRow.mk "P" "why" "bbbb"] 1).Pairwise
          (fun a b => b.cross_score ≤ a.cross_score)
      ∧ ScoredRow.mk "P" "why" "bbbb" 4
          ∈ [DataRow.mk "P" "why" "aa", DataRow.mk "P" "why" "bbbb"].map
              (fun c => ScoredRow.mk c.id c.question c.summary
                ((fun _ d => ((d.length : ℚ))) "q" c.summary))
      ∧ rerankPass (fun _ d => (d.length : ℚ)) "q" [] 1 = []
      ∧ rerankScorerCalls "q" ([] : List DataRow) = []) :=
  ⟨by decide,
   rerank_spec (fun _ d => (d.length : ℚ)) "q"
     [DataRow.mk "P" "why" "aa", DataRow.mk "P" "why" "bbbb"] 1
     (ScoredRow.mk "P" "why" "bbbb" 4) (by decide)⟩

/-- C7 (counterexample): on a store where project `p1` has latest summary
`s1`, the record returned by `get_latest_summary_tool` carries the
project's question under the key `project_name` (the Cypher aliases
`p.question AS project_name`) and has no `question` key at all; and for a
missing project the tool returns the prose string `"No project found."`,
not a structured absent value. -/
theorem get_latest_summary_tool_keys_counterexample :
    get_latest_summary_tool
        (Store.mk [ProjectNode.mk "p1" "Proj" "the question" 0]
          [SummaryNode.mk "s1" "the text" "emb1" 0]
          [("p1", "s1")] [("p1", "s1")] []) "p1"
      = Sum.inl [("project_id", "p1"), ("project_name", "the question"),
                 ("latest_summary", "the text"), ("summary_id", "s1")]
    ∧ "question" ∉ (["project_id", "project_name",
                     "latest_summary", "summary_id"] : List String)
    ∧ get_latest_summary_tool
        (Store.mk [ProjectNode.mk "p1" "Proj" "the question" 0]
          [SummaryNode.mk "s1" "the text" "emb1" 0]
          [("p1", "s1")] [("p1", "s1")] []) "missing"
      = Sum.inr "No project found." := by
  refine ⟨rfl, by decide, rfl⟩

/-- C7 (amended): when the project exists and has a latest summary,
`get_latest_summary_tool` returns the record with keys `project_id`,
`project_name` (carrying the project's `question` property),
`latest_summary` and `summary_id`; when the match is empty it returns the
string `"No project found."`. -/
theorem get_latest_summary_tool_spec {E : Type} (st st2 : Store E)
    (pid pid2 : String) (e : String × String) (p : ProjectNode)
    (s : SummaryNode E)
    (he : st.hasLatest.find? (fun x => x.1 = pid) = some e)
    (hp : st.projects.find? (fun x => x.id = pid) = some p)
    (hs : st.summaries.find? (fun x => x.id = e.2) = some s)
    (hnone : st2.hasLatest.find? (fun x => x.1 = pid2) = none) :
    get_latest_summary_tool st pid
      = Sum.inl [("project_id", p.id), ("project_name", p.question),
                 ("latest_summary", s.text), ("summary_id", s.id)]
    ∧ get_latest_summary_tool st2 pid2 = Sum.inr "No project found." := by
  constructor
  · unfold get_latest_summary_tool
    rw [he]
    dsimp only
    rw [hp, hs]
  · unfold get_latest_summary_tool
    rw [hnone]

theorem get_latest_summary_tool_spec_witness :
    get_latest_summary_tool
        (Store.mk [ProjectNode.mk "p1" "Proj" "the question" 0]
          [SummaryNode.mk "s1" "the text" "emb1" 0]
          [("p1", "s1")] [("p1", "s1")] []) "p1"
      = Sum.inl [("project_id", "p1"), ("project_name", "the question"),
                 ("latest_summary", "the text"), ("summary_id", "s1")]
    ∧ get_latest_summary_tool (Store.empty String) "p1"
      = Sum.inr "No project found." :=
  get_latest_summary_tool_spec
    (Store.mk [ProjectNode.mk "p1" "Proj" "the question" 0]
      [SummaryNode.mk "s1" "the text" "emb1" 0]
      [("p1", "s1")] [("p1", "s1")] [])
    (Store.empty String) "p1" "p1" ("p1", "s1")
    (ProjectNode.mk "p1" "Proj" "the question" 0)
    (SummaryNode.mk "s1" "the text" "emb1" 0)
    (by decide) (by decide) (by decide) (by decide)

end GraphMemory
